import Mathlib

/-!
Shallow embedding of the recursive graph bisection core of the ds2i
repository (src/include/recursive_graph_bisection.hpp and
src/include/codec/varint.hpp), with theorems settling the frozen claims
about it.

Modelling conventions:
* Document handles and term identifiers are natural numbers.
* The forward index is a function `fwd : ℕ → List ℕ` giving each document its
  term list (`forward_index::terms`); where the data model guarantees
  duplicate-free term lists this appears as an explicit hypothesis.
* Degree maps (`std::vector<size_t>` indexed by term) are total functions
  `ℕ → ℕ`; the `size_t` decrement `deg - 1` is modelled with explicit
  wraparound modulo 2^64 so unsigned underflow stays visible.
* `double` arithmetic in the gain kernels is modelled exactly over `ℚ`; the
  `Log2` table (class `Log2`, included from a header outside the bisection
  core) is an abstract parameter `lg : ℕ → ℚ`.
* The shared gain scratch array (`std::vector<double>` indexed by document)
  is a total function `ℕ → ℚ`.
-/

set_option maxRecDepth 16384

namespace DS2I

/-- Wraparound decrement of a `size_t` value: the C++ expression `x - 1` on an
unsigned 64-bit integer. -/
def subOne64 (x : ℕ) : ℕ := (x + (2 ^ 64 - 1)) % 2 ^ 64

/-- The cost kernel `bp::expb(logn1, logn2, deg1, deg2)`: the SIMD code returns
`a3 - a2 + a1 - a0` where `a3 = deg1 * logn1`, `a2 = deg1 * lg (deg1 + 1)`,
`a1 = deg2 * logn2`, `a0 = deg2 * lg (deg2 + 1)`.  Floating point (and the
conversion of the degrees to floats) is modelled as exact rational
arithmetic; `lg` stands for the `Log2` table. -/
def expb (lg : ℕ → ℚ) (logn1 logn2 : ℚ) (deg1 deg2 : ℕ) : ℚ :=
  deg1 * logn1 - deg1 * lg (deg1 + 1) + deg2 * logn2 - deg2 * lg (deg2 + 1)

/-- `document_range::split`: `mid = std::next(m_first, size() / 2)`, the left
half is `[first, mid)` and the right half is `[mid, last)`. -/
def split {α : Type} (docs : List α) : List α × List α :=
  (docs.take (docs.length / 2), docs.drop (docs.length / 2))

theorem split_take_drop {α : Type} (docs : List α) :
    (split docs).1 = docs.take (docs.length / 2) ∧
    (split docs).2 = docs.drop (docs.length / 2) := ⟨rfl, rfl⟩

/-- C6 counterexample: on a three-element range, `split` yields sizes 1 and 2,
so `|left| - |right| = -1`, which is in neither of the claimed cases `{0, 1}`.
(The smaller half is the left one.) -/
theorem C6_counterexample :
    (split ([0, 1, 2] : List ℕ)).1.length = 1 ∧
    (split ([0, 1, 2] : List ℕ)).2.length = 2 ∧
    ¬ (((split ([0, 1, 2] : List ℕ)).1.length : ℤ) -
        ((split ([0, 1, 2] : List ℕ)).2.length : ℤ) = 0 ∨
       ((split ([0, 1, 2] : List ℕ)).1.length : ℤ) -
        ((split ([0, 1, 2] : List ℕ)).2.length : ℤ) = 1) := by
  refine ⟨rfl, rfl, ?_⟩
  decide

/-- C6 (amended): `split` cuts the range at `mid = first + n / 2`, so the two
halves reassemble the range, the left half has `n / 2` elements, and the size
difference satisfies `|right| - |left| ∈ {0, 1}` (the right half is the one
that can be larger by one). -/
theorem C6_split_sizes {α : Type} (docs : List α) :
    (split docs).1 ++ (split docs).2 = docs ∧
    (split docs).1.length = docs.length / 2 ∧
    (((split docs).2.length : ℤ) - ((split docs).1.length : ℤ) = 0 ∨
     ((split docs).2.length : ℤ) - ((split docs).1.length : ℤ) = 1) := by
  refine ⟨List.take_append_drop _ _, ?_, ?_⟩
  · simp [split]
    omega
  · have h1 : (split docs).1.length = docs.length / 2 := by
      simp [split]
      omega
    have h2 : (split docs).2.length = docs.length - docs.length / 2 := by
      simp [split]
    rw [h1, h2]
    omega

/-! ## Varint codec (src/include/codec/varint.hpp)

Bytes are naturals below 256.  `extract7bits<i>(val)` is
`val / 2^(7*i) % 128`; `extract7bitsmaskless<i>(val)` is the `uint8_t` cast
`val / 2^(7*i) % 256`.  In this codec the terminating byte of a block is the
one with the high bit set. -/

/-- The byte block `Varint::encode` emits for one `uint32_t` value. -/
def varintEncodeVal (v : ℕ) : List ℕ :=
  if v < 2 ^ 7 then [v ||| 128]
  else if v < 2 ^ 14 then [v % 128, v / 2 ^ 7 % 256 ||| 128]
  else if v < 2 ^ 21 then [v % 128, v / 2 ^ 7 % 128, v / 2 ^ 14 % 256 ||| 128]
  else if v < 2 ^ 28 then
    [v % 128, v / 2 ^ 7 % 128, v / 2 ^ 14 % 128, v / 2 ^ 21 % 256 ||| 128]
  else
    [v % 128, v / 2 ^ 7 % 128, v / 2 ^ 14 % 128, v / 2 ^ 21 % 128,
      v / 2 ^ 28 % 256 ||| 128]

/-- `Varint::encode(in, length, out, nvalue)`: the blocks of all input values
in order; `nvalue` is the length of this byte list.  `Varint::encode_single`
appends exactly the block of its single value (it calls `encode` on a
one-element array). -/
def varintEncode (vals : List ℕ) : List ℕ := (vals.map varintEncodeVal).join

/-- The inner loop of `Varint::decode`: starting from accumulator `v` and
shift `shift`, consume bytes until one with the high bit set closes the
current value.  `none` models the out-of-bounds read the C++ performs when
the input ends in the middle of a block.  The accumulation
`v += (c & 127) << shift` happens in `uint32_t`, hence the modulus. -/
def varintDecodeVal : List ℕ → ℕ → ℕ → Option (ℕ × List ℕ)
  | [], _, _ => none
  | c :: rest, shift, v =>
    if c / 128 % 2 = 1 then some ((v + c % 128 * 2 ^ shift) % 2 ^ 32, rest)
    else varintDecodeVal rest (shift + 7) ((v + c % 128 * 2 ^ shift) % 2 ^ 32)

/-- The outer `while (inbyte < in + len)` loop of `Varint::decode`, with fuel
bounding the number of decoded values. -/
def varintDecodeGo : ℕ → List ℕ → Option (List ℕ)
  | _, [] => some []
  | 0, _ :: _ => none
  | fuel + 1, c :: rest =>
    match varintDecodeVal (c :: rest) 0 0 with
    | none => none
    | some (v, rest') =>
      match varintDecodeGo fuel rest' with
      | none => none
      | some tl => some (v :: tl)

/-- `Varint::decode(in, out, len)`: each block consumes at least one byte, so
`len` is sufficient fuel for the outer loop. -/
def varintDecode (bs : List ℕ) : Option (List ℕ) :=
  varintDecodeGo bs.length bs

theorem lor128_eq_add : ∀ x < 128, x ||| 128 = x + 128 := by decide

theorem varintDecodeVal_cont (c : ℕ) (rest : List ℕ) (shift v : ℕ)
    (hc : c < 128) :
    varintDecodeVal (c :: rest) shift v =
      varintDecodeVal rest (shift + 7) ((v + c * 2 ^ shift) % 2 ^ 32) := by
  have h0 : c / 128 = 0 := Nat.div_eq_of_lt hc
  have h1 : c % 128 = c := Nat.mod_eq_of_lt hc
  simp [varintDecodeVal, h0, h1]

theorem varintDecodeVal_stop (c : ℕ) (rest : List ℕ) (shift v : ℕ)
    (hc : 128 ≤ c) (hc' : c < 256) :
    varintDecodeVal (c :: rest) shift v =
      some (((v + (c - 128) * 2 ^ shift) % 2 ^ 32), rest) := by
  have h0 : c / 128 % 2 = 1 := by omega
  have h1 : c % 128 = c - 128 := by omega
  simp [varintDecodeVal, h0, h1]

theorem varintDecodeVal_encodeVal (v : ℕ) (hv : v < 2 ^ 32) (rest : List ℕ) :
    varintDecodeVal (varintEncodeVal v ++ rest) 0 0 = some (v, rest) := by
  by_cases h1 : v < 2 ^ 7
  · have hb : v ||| 128 = v + 128 := lor128_eq_add v h1
    simp only [varintEncodeVal, if_pos h1, List.cons_append, List.nil_append]
    rw [hb, varintDecodeVal_stop _ _ _ _ (by omega) (by omega)]
    congr 2
    omega
  · by_cases h2 : v < 2 ^ 14
    · have hd : v / 2 ^ 7 % 256 = v / 2 ^ 7 := by omega
      have hb : v / 2 ^ 7 % 256 ||| 128 = v / 2 ^ 7 + 128 := by
        rw [hd]; exact lor128_eq_add _ (by omega)
      simp only [varintEncodeVal, if_neg h1, if_pos h2, List.cons_append,
        List.nil_append]
      rw [varintDecodeVal_cont _ _ _ _ (by omega), hb,
        varintDecodeVal_stop _ _ _ _ (by omega) (by omega)]
      congr 2
      omega
    · by_cases h3 : v < 2 ^ 21
      · have hd : v / 2 ^ 14 % 256 = v / 2 ^ 14 := by omega
        have hb : v / 2 ^ 14 % 256 ||| 128 = v / 2 ^ 14 + 128 := by
          rw [hd]; exact lor128_eq_add _ (by omega)
        simp only [varintEncodeVal, if_neg h1, if_neg h2, if_pos h3,
          List.cons_append, List.nil_append]
        rw [varintDecodeVal_cont _ _ _ _ (by omega),
          varintDecodeVal_cont _ _ _ _ (by omega), hb,
          varintDecodeVal_stop _ _ _ _ (by omega) (by omega)]
        congr 2
        omega
      · by_cases h4 : v < 2 ^ 28
        · have hd : v / 2 ^ 21 % 256 = v / 2 ^ 21 := by omega
          have hb : v / 2 ^ 21 % 256 ||| 128 = v / 2 ^ 21 + 128 := by
            rw [hd]; exact lor128_eq_add _ (by omega)
          simp only [varintEncodeVal, if_neg h1, if_neg h2, if_neg h3,
            if_pos h4, List.cons_append, List.nil_append]
          rw [varintDecodeVal_cont _ _ _ _ (by omega),
            varintDecodeVal_cont _ _ _ _ (by omega),
            varintDecodeVal_cont _ _ _ _ (by omega), hb,
            varintDecodeVal_stop _ _ _ _ (by omega) (by omega)]
          congr 2
          omega
        · have hd : v / 2 ^ 28 % 256 = v / 2 ^ 28 := by omega
          have hb : v / 2 ^ 28 % 256 ||| 128 = v / 2 ^ 28 + 128 := by
            rw [hd]; exact lor128_eq_add _ (by omega)
          simp only [varintEncodeVal, if_neg h1, if_neg h2, if_neg h3,
            if_neg h4, List.cons_append, List.nil_append]
          rw [varintDecodeVal_cont _ _ _ _ (by omega),
            varintDecodeVal_cont _ _ _ _ (by omega),
            varintDecodeVal_cont _ _ _ _ (by omega),
            varintDecodeVal_cont _ _ _ _ (by omega), hb,
            varintDecodeVal_stop _ _ _ _ (by omega) (by omega)]
          congr 2
          omega

theorem varintEncodeVal_ne_nil (v : ℕ) : varintEncodeVal v ≠ [] := by
  unfold varintEncodeVal
  split <;> simp_all <;> split <;> simp_all <;> split <;> simp_all <;>
    split <;> simp_all

theorem varintDecodeGo_encode (vals : List ℕ) :
    ∀ fuel : ℕ, (∀ v ∈ vals, v < 2 ^ 32) →
    (varintEncode vals).length ≤ fuel →
    varintDecodeGo fuel (varintEncode vals) = some vals := by
  induction vals with
  | nil => intro fuel _ _; simp [varintEncode, varintDecodeGo]
  | cons v vs ih =>
    intro fuel hv hfuel
    have henc : varintEncode (v :: vs) = varintEncodeVal v ++ varintEncode vs := by
      simp [varintEncode]
    obtain ⟨c, bs, hcb⟩ : ∃ c bs, varintEncodeVal v = c :: bs := by
      cases hb : varintEncodeVal v with
      | nil => exact absurd hb (varintEncodeVal_ne_nil v)
      | cons c bs => exact ⟨c, bs, rfl⟩
    have hlen : 1 ≤ (varintEncodeVal v).length := by
      rw [hcb]; simp
    obtain ⟨f, rfl⟩ : ∃ f, fuel = f + 1 := by
      refine ⟨fuel - 1, ?_⟩
      rw [henc, hcb] at hfuel
      simp at hfuel
      omega
    have hrest : (varintEncode vs).length ≤ f := by
      rw [henc, hcb] at hfuel
      simp only [List.length_append, List.length_cons] at hfuel
      omega
    rw [henc, hcb, List.cons_append, varintDecodeGo, ← List.cons_append, ← hcb]
    simp only [varintDecodeVal_encodeVal v (hv v (by simp)) (varintEncode vs),
      ih f (fun x hx => hv x (by simp [hx])) hrest]

/-- C10: varint round trip.  Encoding any sequence of `uint32_t` values with
`Varint::encode` and decoding the resulting `nvalue` bytes with
`Varint::decode` yields exactly the original sequence (so the returned count
is its length); in particular decoding the bytes appended by
`Varint::encode_single` recovers the single encoded value. -/
theorem C10_varint_round_trip (vals : List ℕ) (hv : ∀ v ∈ vals, v < 2 ^ 32) :
    varintDecode (varintEncode vals) = some vals ∧
    (varintDecode (varintEncode vals)).map List.length = some vals.length := by
  have h := varintDecodeGo_encode vals (varintEncode vals).length hv le_rfl
  exact ⟨h, by rw [varintDecode, h]; rfl⟩

/-- C10 witness: the round trip evaluated on a concrete value list exercising
all five block lengths. -/
theorem C10_varint_round_trip_witness :
    (∀ v ∈ [0, 127, 128, 300, 20000, 3000000, 300000000, 4294967295], v < 2 ^ 32) ∧
    varintDecode (varintEncode
      [0, 127, 128, 300, 20000, 3000000, 300000000, 4294967295]) =
      some [0, 127, 128, 300, 20000, 3000000, 300000000, 4294967295] :=
  ⟨by decide, (C10_varint_round_trip _ (by decide)).1⟩

/-! ## Permutation extraction (get_mapping) -/

/-- Loop of `get_mapping`: scan the collection writing `mapping[id] = p++`. -/
def mapGo : List ℕ → List ℕ → ℕ → List ℕ
  | m, [], _ => m
  | m, id :: rest, p => mapGo (m.set id p) rest (p + 1)

/-- `get_mapping(collection)`: a vector of `collection.size()` zeros, then a
single scan writing `mapping[id] = p++` in collection order. -/
def get_mapping (collection : List ℕ) : List ℕ :=
  mapGo (List.replicate collection.length 0) collection 0

theorem mapGo_length (l : List ℕ) : ∀ (m : List ℕ) (p : ℕ),
    (mapGo m l p).length = m.length := by
  induction l with
  | nil => intro m p; rfl
  | cons a rest ih =>
    intro m p
    rw [mapGo, ih, List.length_set]

theorem mapGo_getElem_not_mem (l : List ℕ) : ∀ (m : List ℕ) (p id : ℕ),
    id ∉ l → (mapGo m l p)[id]? = m[id]? := by
  induction l with
  | nil => intro m p id _; rfl
  | cons a rest ih =>
    intro m p id hid
    rw [mapGo, ih _ _ _ (fun h => hid (List.mem_cons_of_mem _ h)),
      List.getElem?_set_ne (fun h => hid (by rw [h]; exact List.mem_cons_self _ _))]

theorem mapGo_getElem_mem (l : List ℕ) : ∀ (m : List ℕ) (p id : ℕ),
    l.Nodup → id ∈ l → id < m.length →
    (mapGo m l p)[id]? = some (p + l.indexOf id) := by
  induction l with
  | nil => intro m p id _ hid; exact absurd hid (List.not_mem_nil id)
  | cons a rest ih =>
    intro m p id hnd hid hlt
    by_cases hia : id = a
    · subst hia
      have hnr : id ∉ rest := (List.nodup_cons.mp hnd).1
      rw [mapGo, mapGo_getElem_not_mem _ _ _ _ hnr,
        List.getElem?_set_self (by simpa using hlt), List.indexOf_cons_self]
      simp [Nat.mod_eq_of_lt]
    · have hir : id ∈ rest := by
        rcases List.mem_cons.mp hid with h | h
        · exact absurd h hia
        · exact h
      rw [mapGo, ih _ _ _ (List.nodup_cons.mp hnd).2 hir (by simpa using hlt)]
      rw [List.indexOf_cons_ne _ (fun h => hia h.symm)]
      congr 1
      omega

/-- C1: if the handle ids form a permutation of `[0, D)`, `get_mapping`
returns a vector of length `D` that is again a permutation of `[0, D)`, and
`mapping[id]` is the position at which `id` occurs in the scan order. -/
theorem C1_get_mapping_permutation (collection : List ℕ)
    (h : collection.Perm (List.range collection.length)) :
    (get_mapping collection).Perm (List.range collection.length) ∧
    ∀ id, id < collection.length →
      (get_mapping collection)[id]? = some (collection.indexOf id) := by
  set D := collection.length with hD
  have hnd : collection.Nodup := h.symm.nodup (List.nodup_range D)
  have hmem : ∀ id, id ∈ collection ↔ id < D := by
    intro id
    rw [h.mem_iff, List.mem_range]
  have hlen : (get_mapping collection).length = D := by
    rw [get_mapping, mapGo_length, List.length_replicate]
  have hget : ∀ id, id < D →
      (get_mapping collection)[id]? = some (collection.indexOf id) := by
    intro id hid
    rw [get_mapping, mapGo_getElem_mem _ _ _ _ hnd ((hmem id).mpr hid)
      (by rw [List.length_replicate]; exact hid)]
    simp
  refine ⟨?_, hget⟩
  have hmap : get_mapping collection =
      (List.range D).map (fun id => collection.indexOf id) := by
    apply List.ext_getElem?
    intro i
    by_cases hi : i < D
    · rw [hget i hi, List.getElem?_map, List.getElem?_range hi]
      rfl
    · rw [List.getElem?_eq_none (by omega), List.getElem?_eq_none]
      simp only [List.length_map, List.length_range]
      omega
  rw [hmap]
  have hndm : ((List.range D).map (fun id => collection.indexOf id)).Nodup := by
    refine List.Nodup.map_on ?_ (List.nodup_range D)
    intro x hx y hy hxy
    have hxc : x ∈ collection := (hmem x).mpr (List.mem_range.mp hx)
    have hyc : y ∈ collection := (hmem y).mpr (List.mem_range.mp hy)
    exact (List.indexOf_inj hxc hyc).mp hxy
  rw [List.perm_ext_iff_of_nodup hndm (List.nodup_range D)]
  intro a
  simp only [List.mem_map, List.mem_range]
  constructor
  · rintro ⟨b, hb, rfl⟩
    exact (hD ▸ List.indexOf_lt_length.mpr ((hmem b).mpr hb))
  · intro ha
    have haD : a < collection.length := hD ▸ ha
    refine ⟨collection[a], ?_, ?_⟩
    · exact (hmem _).mp (List.getElem_mem haD)
    · exact List.indexOf_getElem hnd a haD

/-- C1 witness: the permutation property evaluated on the concrete collection
`[2, 0, 1]`. -/
theorem C1_get_mapping_permutation_witness :
    ([2, 0, 1] : List ℕ).Perm (List.range 3) ∧
    (get_mapping [2, 0, 1]).Perm (List.range 3) ∧
    (get_mapping [2, 0, 1])[2]? = some 0 := by
  have h := C1_get_mapping_permutation [2, 0, 1] (by decide)
  exact ⟨by decide, h.1, h.2 2 (by decide)⟩

/-! ## Degree maps (compute_degrees) -/

/-- Increment slot `t` of a degree map (`deg_map[t] += 1`). -/
def bumpAt (m : ℕ → ℕ) (t : ℕ) : ℕ → ℕ :=
  fun u => if u = t then m u + 1 else m u

/-- Decrement slot `t` of a degree map (`deg[t]--` on `size_t`, with the
wraparound of unsigned subtraction kept explicit). -/
def decAt (m : ℕ → ℕ) (t : ℕ) : ℕ → ℕ :=
  fun u => if u = t then subOne64 (m u) else m u

/-- `compute_degrees(range)`: start from the zero vector and, for each
document of the range, increment the slot of each of its terms. -/
def compute_degrees (fwd : ℕ → List ℕ) (docs : List ℕ) : ℕ → ℕ :=
  docs.foldl (fun m d => (fwd d).foldl bumpAt m) (fun _ => 0)

/-- Number of documents of `docs` whose term list contains `t`. -/
def countDocs (fwd : ℕ → List ℕ) (docs : List ℕ) (t : ℕ) : ℕ :=
  (docs.filter (fun d => t ∈ fwd d)).length

theorem foldl_bumpAt (ts : List ℕ) : ∀ (m : ℕ → ℕ) (u : ℕ),
    (ts.foldl bumpAt m) u = m u + ts.count u := by
  induction ts with
  | nil => intro m u; simp
  | cons t rest ih =>
    intro m u
    rw [List.foldl_cons, ih]
    by_cases hut : u = t
    · subst hut
      simp [bumpAt, List.count_cons]
      omega
    · simp [bumpAt, hut, List.count_cons, Ne.symm hut]

theorem compute_degrees_go (fwd : ℕ → List ℕ) (docs : List ℕ) :
    ∀ (m : ℕ → ℕ) (t : ℕ),
    (docs.foldl (fun m d => (fwd d).foldl bumpAt m) m) t =
      m t + ((docs.map (fun d => (fwd d).count t)).sum) := by
  induction docs with
  | nil => intro m t; simp
  | cons d rest ih =>
    intro m t
    rw [List.foldl_cons, ih, foldl_bumpAt]
    simp
    omega

/-- A degree map computed by `compute_degrees` holds, per term, the total
number of occurrences of the term over the range's term lists. -/
theorem compute_degrees_eq_sum (fwd : ℕ → List ℕ) (docs : List ℕ) (t : ℕ) :
    compute_degrees fwd docs t = ((docs.map (fun d => (fwd d).count t)).sum) := by
  rw [compute_degrees, compute_degrees_go]
  omega

/-- With duplicate-free term lists, `compute_degrees` counts the documents
containing each term. -/
theorem compute_degrees_eq_countDocs (fwd : ℕ → List ℕ) (docs : List ℕ)
    (hN : ∀ d, (fwd d).Nodup) (t : ℕ) :
    compute_degrees fwd docs t = countDocs fwd docs t := by
  rw [compute_degrees_eq_sum, countDocs]
  induction docs with
  | nil => simp
  | cons d rest ih =>
    by_cases hm : t ∈ fwd d
    · rw [List.map_cons, List.sum_cons, ih,
        List.filter_cons_of_pos (by simpa using hm), List.length_cons,
        List.count_eq_one_of_mem (hN d) hm]
      omega
    · rw [List.map_cons, List.sum_cons, ih,
        List.filter_cons_of_neg (by simpa using hm),
        List.count_eq_zero_of_not_mem hm]
      omega

theorem countDocs_le_length (fwd : ℕ → List ℕ) (docs : List ℕ) (t : ℕ) :
    countDocs fwd docs t ≤ docs.length :=
  List.length_filter_le _ _

/-! ## Plain gain kernel (compute_move_gains) -/

/-- Per-term move gain of the plain and caching kernels:
`expb(logn1, logn2, from_deg, to_deg) - expb(logn1, logn2, from_deg - 1, to_deg + 1)`
with the unsigned decrement of `from_deg` kept explicit. -/
def term_gain (lg : ℕ → ℚ) (logn1 logn2 : ℚ) (fL tL : ℕ → ℕ) (t : ℕ) : ℚ :=
  expb lg logn1 logn2 (fL t) (tL t) -
    expb lg logn1 logn2 (subOne64 (fL t)) (tL t + 1)

/-- Per-document body of the plain kernel: term gains accumulated over the
document's term list in order. -/
def doc_gain (lg : ℕ → ℚ) (logn1 logn2 : ℚ) (fwd : ℕ → List ℕ)
    (fL tL : ℕ → ℕ) (d : ℕ) : ℚ :=
  (fwd d).foldl (fun g t => g + term_gain lg logn1 logn2 fL tL t) 0

/-- `compute_move_gains(range, from_n, to_n, from_lex, to_lex)` (plain
kernel): writes `gain(d)` for every handle of the range, with
`logn1 = lg from_n` and `logn2 = lg to_n` computed at entry. -/
def compute_move_gains (lg : ℕ → ℚ) (fwd : ℕ → List ℕ) (docs : List ℕ)
    (from_n to_n : ℕ) (fL tL : ℕ → ℕ) (gains : ℕ → ℚ) : ℕ → ℚ :=
  docs.foldl
    (fun gs d => fun u =>
      if u = d then doc_gain lg (lg from_n) (lg to_n) fwd fL tL d else gs u)
    gains

/-- Modelled from the spec: the BP cost function
`cost_term(d1, d2, n1, n2) = d1 (log2 n1 - log2 (d1+1)) + d2 (log2 n2 - log2 (d2+1))`. -/
def cost_term (lg : ℕ → ℚ) (d1 d2 n1 n2 : ℕ) : ℚ :=
  d1 * (lg n1 - lg (d1 + 1)) + d2 * (lg n2 - lg (d2 + 1))

/-- Modelled from the spec: a document's move gain, the per-term sum of
`cost_term(d1, d2, n1, n2) - cost_term(d1 - 1, d2 + 1, n1, n2)`. -/
def spec_move_gain (lg : ℕ → ℚ) (fwd : ℕ → List ℕ) (fL tL : ℕ → ℕ)
    (n1 n2 : ℕ) (d : ℕ) : ℚ :=
  ((fwd d).map (fun t =>
    cost_term lg (fL t) (tL t) n1 n2 -
      cost_term lg (fL t - 1) (tL t + 1) n1 n2)).sum

theorem gains_write_go (f : ℕ → ℚ) (docs : List ℕ) :
    ∀ (gains : ℕ → ℚ) (u : ℕ),
    (docs.foldl (fun gs d => fun u => if u = d then f d else gs u) gains) u =
      if u ∈ docs then f u else gains u := by
  induction docs with
  | nil => intro gains u; simp
  | cons d rest ih =>
    intro gains u
    rw [List.foldl_cons, ih]
    by_cases hu : u ∈ rest
    · simp [hu]
    · by_cases hud : u = d
      · subst hud
        simp [hu]
      · simp [hu, hud]

theorem compute_move_gains_apply (lg : ℕ → ℚ) (fwd : ℕ → List ℕ)
    (from_n to_n : ℕ) (fL tL : ℕ → ℕ) (docs : List ℕ)
    (gains : ℕ → ℚ) (u : ℕ) :
    compute_move_gains lg fwd docs from_n to_n fL tL gains u =
      if u ∈ docs then doc_gain lg (lg from_n) (lg to_n) fwd fL tL u
      else gains u := by
  rw [compute_move_gains]
  exact gains_write_go (doc_gain lg (lg from_n) (lg to_n) fwd fL tL)
    docs gains u

theorem foldl_add_eq_sum (f : ℕ → ℚ) (ts : List ℕ) : ∀ a : ℚ,
    ts.foldl (fun g t => g + f t) a = a + (ts.map f).sum := by
  induction ts with
  | nil => intro a; simp
  | cons t rest ih =>
    intro a
    rw [List.foldl_cons, ih, List.map_cons, List.sum_cons]
    ring

theorem subOne64_eq_sub (x : ℕ) (h1 : 1 ≤ x) (h2 : x < 2 ^ 64) :
    subOne64 x = x - 1 := by
  rw [subOne64]
  have : x + (2 ^ 64 - 1) = (x - 1) + 2 ^ 64 := by omega
  rw [this, Nat.add_mod_right]
  exact Nat.mod_eq_of_lt (by omega)

theorem expb_eq_cost_term (lg : ℕ → ℚ) (d1 d2 n1 n2 : ℕ) :
    expb lg (lg n1) (lg n2) d1 d2 = cost_term lg d1 d2 n1 n2 := by
  rw [expb, cost_term]
  ring

/-- C4: on any handle of the `from` range whose terms all have a positive
(and representable) `from` degree, the plain kernel writes a gain equal to
the specification's move gain: the per-term sum of
`cost_term(d1, d2, n1, n2) - cost_term(d1 - 1, d2 + 1, n1, n2)` with
`d1 = deg_from[t]` and `d2 = deg_to[t]`. -/
theorem C4_plain_kernel_gain (lg : ℕ → ℚ) (fwd : ℕ → List ℕ)
    (docs : List ℕ) (from_n to_n : ℕ) (fL tL : ℕ → ℕ) (gains : ℕ → ℚ)
    (d : ℕ) (hd : d ∈ docs)
    (hdeg : ∀ t ∈ fwd d, 1 ≤ fL t ∧ fL t < 2 ^ 64) :
    compute_move_gains lg fwd docs from_n to_n fL tL gains d =
      spec_move_gain lg fwd fL tL from_n to_n d := by
  rw [compute_move_gains_apply, if_pos hd, doc_gain, foldl_add_eq_sum,
    zero_add, spec_move_gain]
  congr 1
  apply List.map_congr_left
  intro t ht
  rw [term_gain, subOne64_eq_sub (fL t) (hdeg t ht).1 (hdeg t ht).2,
    expb_eq_cost_term, expb_eq_cost_term]

/-- C4 witness: the kernel evaluated on a one-document range with one term. -/
theorem C4_plain_kernel_gain_witness :
    ((0 : ℕ) ∈ [0] ∧ ∀ t ∈ (fun d => if d = 0 then [3] else []) 0,
        1 ≤ (fun _ : ℕ => 1) t ∧ (fun _ : ℕ => 1) t < 2 ^ 64) ∧
    compute_move_gains (fun _ => 0) (fun d => if d = 0 then [3] else [])
        [0] 1 1 (fun _ => 1) (fun _ => 0) (fun _ => 0) 0 =
      spec_move_gain (fun _ => 0) (fun d => if d = 0 then [3] else [])
        (fun _ => 1) (fun _ => 0) 1 1 0 := by
  refine ⟨⟨by simp, by intro t ht; exact ⟨le_refl 1, by norm_num⟩⟩, ?_⟩
  exact C4_plain_kernel_gain (fun _ => 0) (fun d => if d = 0 then [3] else [])
    [0] 1 1 (fun _ => 1) (fun _ => 0) (fun _ => 0) 0 (by simp)
    (by intro t ht; exact ⟨le_refl 1, by norm_num⟩)

/-- C7: when the `from` degree map equals the true per-term document counts of
the `from` range, every term of every handle of that range has
`from_deg ≥ 1`, so the unsigned subtraction `from_deg - 1` that the plain and
caching kernels evaluate (only at such terms) never wraps around. -/
theorem C7_no_underflow (fwd : ℕ → List ℕ) (docs : List ℕ) (fL : ℕ → ℕ)
    (hfl : ∀ u, fL u = countDocs fwd docs u) (hlen : docs.length < 2 ^ 64)
    (d : ℕ) (hd : d ∈ docs) (t : ℕ) (ht : t ∈ fwd d) :
    1 ≤ fL t ∧ subOne64 (fL t) = fL t - 1 := by
  have h1 : 1 ≤ fL t := by
    rw [hfl, countDocs]
    have : d ∈ docs.filter (fun d => t ∈ fwd d) :=
      List.mem_filter.mpr ⟨hd, by simpa using ht⟩
    have := List.length_pos.mpr (List.ne_nil_of_mem this)
    omega
  refine ⟨h1, subOne64_eq_sub _ h1 ?_⟩
  calc fL t = countDocs fwd docs t := hfl t
  _ ≤ docs.length := countDocs_le_length fwd docs t
  _ < 2 ^ 64 := hlen

/-- C7 witness: the no-underflow property evaluated on a concrete range. -/
theorem C7_no_underflow_witness :
    1 ≤ countDocs (fun d => if d = 0 then [5] else []) [0] 5 ∧
    subOne64 (countDocs (fun d => if d = 0 then [5] else []) [0] 5) =
      countDocs (fun d => if d = 0 then [5] else []) [0] 5 - 1 := by
  exact C7_no_underflow (fun d => if d = 0 then [5] else []) [0]
    (countDocs (fun d => if d = 0 then [5] else []) [0]) (fun _ => rfl)
    (by norm_num) 0 (by simp) 5 (by simp)

/-! ## Caching gain kernel (compute_move_gains_caching) -/

/-- One slot of the thread-local gain cache (`cache_entry<double>`): a value
plus the generation at which it was filled.  `has_value()` is true exactly
when the stored generation equals the thread's current generation. -/
structure CacheEntry where
  value : ℚ
  gen : ℕ

/-- Cache update for one term: on a miss (stored generation different from
the current one) compute the term gain once and store it at the current
generation; on a hit leave the cache unchanged. -/
def cacheStep (lg : ℕ → ℚ) (logn1 logn2 : ℚ) (fL tL : ℕ → ℕ) (g : ℕ)
    (c : ℕ → CacheEntry) (t : ℕ) : ℕ → CacheEntry :=
  if (c t).gen = g then c
  else fun u => if u = t then ⟨term_gain lg logn1 logn2 fL tL t, g⟩ else c u

/-- Per-document loop of the caching kernel: for each term of the document,
fill the cache on a miss, then accumulate the (now cached) value. -/
def doc_gain_caching (lg : ℕ → ℚ) (logn1 logn2 : ℚ) (fL tL : ℕ → ℕ)
    (g : ℕ) : List ℕ → ℚ → (ℕ → CacheEntry) → ℚ × (ℕ → CacheEntry)
  | [], acc, c => (acc, c)
  | t :: ts, acc, c =>
    let c' := cacheStep lg logn1 logn2 fL tL g c t
    doc_gain_caching lg logn1 logn2 fL tL g ts (acc + (c' t).value) c'

/-- The `std::for_each` over the range in the caching kernel, threading the
gains array and the cache document by document. -/
def caching_fold (lg : ℕ → ℚ) (logn1 logn2 : ℚ) (fwd : ℕ → List ℕ)
    (fL tL : ℕ → ℕ) (g : ℕ) (docs : List ℕ)
    (st : (ℕ → ℚ) × (ℕ → CacheEntry)) : (ℕ → ℚ) × (ℕ → CacheEntry) :=
  docs.foldl
    (fun (st : (ℕ → ℚ) × (ℕ → CacheEntry)) d =>
      let r := doc_gain_caching lg logn1 logn2 fL tL g (fwd d) 0 st.2
      (fun u => if u = d then r.1 else st.1 u, r.2))
    st

/-- `compute_move_gains_caching(range, from_n, to_n, from_lex, to_lex)`: bump
the thread's generation counter, then write `gain(d)` for every handle of the
range through the per-term cache.  The result carries the updated gains, the
new generation counter and the final cache. -/
def compute_move_gains_caching (lg : ℕ → ℚ) (fwd : ℕ → List ℕ)
    (docs : List ℕ) (from_n to_n : ℕ) (fL tL : ℕ → ℕ) (gains : ℕ → ℚ)
    (g0 : ℕ) (c0 : ℕ → CacheEntry) : (ℕ → ℚ) × ℕ × (ℕ → CacheEntry) :=
  let g := g0 + 1
  let res := caching_fold lg (lg from_n) (lg to_n) fwd fL tL g docs (gains, c0)
  (res.1, g, res.2)

/-- Invariant of the caching pass: every cache slot stamped with the current
generation holds the term gain of its term for the current inputs. -/
def cache_ok (lg : ℕ → ℚ) (logn1 logn2 : ℚ) (fL tL : ℕ → ℕ) (g : ℕ)
    (c : ℕ → CacheEntry) : Prop :=
  ∀ t, (c t).gen = g → (c t).value = term_gain lg logn1 logn2 fL tL t

theorem cacheStep_ok (lg : ℕ → ℚ) (logn1 logn2 : ℚ) (fL tL : ℕ → ℕ)
    (g : ℕ) (c : ℕ → CacheEntry) (t : ℕ)
    (h : cache_ok lg logn1 logn2 fL tL g c) :
    cache_ok lg logn1 logn2 fL tL g (cacheStep lg logn1 logn2 fL tL g c t) ∧
    ((cacheStep lg logn1 logn2 fL tL g c t) t).value =
      term_gain lg logn1 logn2 fL tL t := by
  rw [cacheStep]
  by_cases hh : (c t).gen = g
  · rw [if_pos hh]
    exact ⟨h, h t hh⟩
  · rw [if_neg hh]
    constructor
    · intro u hu
      by_cases hut : u = t
      · subst hut
        simp
      · simp only [if_neg hut] at hu ⊢
        exact h u hu
    · simp

theorem doc_gain_caching_spec (lg : ℕ → ℚ) (logn1 logn2 : ℚ)
    (fL tL : ℕ → ℕ) (g : ℕ) (ts : List ℕ) :
    ∀ (acc : ℚ) (c : ℕ → CacheEntry),
    cache_ok lg logn1 logn2 fL tL g c →
    (doc_gain_caching lg logn1 logn2 fL tL g ts acc c).1 =
       acc + ((ts.map (term_gain lg logn1 logn2 fL tL)).sum) ∧
    cache_ok lg logn1 logn2 fL tL g
      (doc_gain_caching lg logn1 logn2 fL tL g ts acc c).2 := by
  induction ts with
  | nil => intro acc c hc; simpa [doc_gain_caching] using hc
  | cons t ts ih =>
    intro acc c hc
    rw [doc_gain_caching]
    have hstep := cacheStep_ok lg logn1 logn2 fL tL g c t hc
    have hrec := ih (acc + ((cacheStep lg logn1 logn2 fL tL g c t) t).value)
      (cacheStep lg logn1 logn2 fL tL g c t) hstep.1
    refine ⟨?_, hrec.2⟩
    rw [hrec.1, hstep.2, List.map_cons, List.sum_cons]
    ring

theorem doc_gain_eq_sum (lg : ℕ → ℚ) (logn1 logn2 : ℚ) (fwd : ℕ → List ℕ)
    (fL tL : ℕ → ℕ) (d : ℕ) :
    doc_gain lg logn1 logn2 fwd fL tL d =
      ((fwd d).map (term_gain lg logn1 logn2 fL tL)).sum := by
  rw [doc_gain, foldl_add_eq_sum, zero_add]

theorem caching_fold_spec (lg : ℕ → ℚ) (logn1 logn2 : ℚ)
    (fwd : ℕ → List ℕ) (fL tL : ℕ → ℕ) (g : ℕ) (docs : List ℕ) :
    ∀ st : (ℕ → ℚ) × (ℕ → CacheEntry),
    cache_ok lg logn1 logn2 fL tL g st.2 →
    (∀ u, (caching_fold lg logn1 logn2 fwd fL tL g docs st).1 u =
      if u ∈ docs then ((fwd u).map (term_gain lg logn1 logn2 fL tL)).sum
      else st.1 u) ∧
    cache_ok lg logn1 logn2 fL tL g
      (caching_fold lg logn1 logn2 fwd fL tL g docs st).2 := by
  induction docs with
  | nil => intro st hst; simpa [caching_fold] using hst
  | cons d rest ih =>
    intro st hst
    have hdoc := doc_gain_caching_spec lg logn1 logn2 fL tL g (fwd d) 0
      st.2 hst
    rw [caching_fold, List.foldl_cons]
    have hrec := ih
      (fun u => if u = d then
        (doc_gain_caching lg logn1 logn2 fL tL g (fwd d) 0 st.2).1 else st.1 u,
       (doc_gain_caching lg logn1 logn2 fL tL g (fwd d) 0 st.2).2) hdoc.2
    rw [caching_fold] at hrec
    refine ⟨?_, hrec.2⟩
    intro u
    rw [hrec.1 u]
    by_cases hu : u ∈ rest
    · rw [if_pos hu, if_pos (List.mem_cons_of_mem d hu)]
    · rw [if_neg hu]
      show (if u = d then
          (doc_gain_caching lg logn1 logn2 fL tL g (fwd d) 0 st.2).1
        else st.1 u) = _
      by_cases hud : u = d
      · subst hud
        rw [if_pos rfl, if_pos (List.mem_cons_self u rest), hdoc.1, zero_add]
      · rw [if_neg hud,
          if_neg (fun h => (List.mem_cons.mp h).elim hud hu)]

/-- Initial caches whose stamps all predate the bumped generation satisfy the
cache invariant vacuously. -/
theorem cache_ok_of_stale (lg : ℕ → ℚ) (logn1 logn2 : ℚ) (fL tL : ℕ → ℕ)
    (g0 : ℕ) (c0 : ℕ → CacheEntry) (hc : ∀ t, (c0 t).gen ≤ g0) :
    cache_ok lg logn1 logn2 fL tL (g0 + 1) c0 := by
  intro t ht
  have := hc t
  omega

/-- C5 (amended): on identical inputs the caching kernel writes exactly the
gains of the plain kernel — hence the two induce identical orderings of the
handles by gain.  The hypothesis is the generation contract: every initial
cache stamp predates the bumped generation. -/
theorem C5_plain_caching_agree (lg : ℕ → ℚ) (fwd : ℕ → List ℕ)
    (docs : List ℕ) (from_n to_n : ℕ) (fL tL : ℕ → ℕ) (gains : ℕ → ℚ)
    (g0 : ℕ) (c0 : ℕ → CacheEntry) (hc : ∀ t, (c0 t).gen ≤ g0) :
    (compute_move_gains_caching lg fwd docs from_n to_n fL tL gains g0 c0).1 =
      compute_move_gains lg fwd docs from_n to_n fL tL gains := by
  funext u
  have hok := cache_ok_of_stale lg (lg from_n) (lg to_n) fL tL g0 c0 hc
  have h := caching_fold_spec lg (lg from_n) (lg to_n) fwd fL tL (g0 + 1)
    docs (gains, c0) hok
  rw [compute_move_gains_caching]
  rw [compute_move_gains_apply, h.1 u, doc_gain_eq_sum]

/-- C5 witness: kernel agreement evaluated at a concrete input with a stale
nonempty cache. -/
theorem C5_plain_caching_agree_witness :
    (∀ t : ℕ, ((fun _ : ℕ => CacheEntry.mk 7 0) t).gen ≤ 0) ∧
    (compute_move_gains_caching (fun _ => 0)
        (fun d => if d = 0 then [1] else []) [0, 1] 1 1 (fun _ => 1)
        (fun _ => 0) (fun _ => 0) 0 (fun _ => CacheEntry.mk 7 0)).1 =
      compute_move_gains (fun _ => 0) (fun d => if d = 0 then [1] else [])
        [0, 1] 1 1 (fun _ => 1) (fun _ => 0) (fun _ => 0) :=
  ⟨fun _ => Nat.le_refl 0,
   C5_plain_caching_agree (fun _ => 0) (fun d => if d = 0 then [1] else [])
     [0, 1] 1 1 (fun _ => 1) (fun _ => 0) (fun _ => 0) 0
     (fun _ => CacheEntry.mk 7 0) (fun _ => Nat.le_refl 0)⟩

/-- C8: generation contract of the cache.  Entering the caching kernel bumps
the thread's generation counter; given that all pre-existing stamps predate
it (the counter only grows), the written gains are independent of whatever
the cache held before the pass — no value from an earlier pass is ever
reused — and every slot stamped with the current generation holds the term
gain computed from the current pass's inputs. -/
theorem C8_cache_generation_contract (lg : ℕ → ℚ) (fwd : ℕ → List ℕ)
    (docs : List ℕ) (from_n to_n : ℕ) (fL tL : ℕ → ℕ) (gains : ℕ → ℚ)
    (g0 : ℕ) (c1 c2 : ℕ → CacheEntry)
    (h1 : ∀ t, (c1 t).gen ≤ g0) (h2 : ∀ t, (c2 t).gen ≤ g0) :
    (compute_move_gains_caching lg fwd docs from_n to_n fL tL gains
        g0 c1).2.1 = g0 + 1 ∧
    (compute_move_gains_caching lg fwd docs from_n to_n fL tL gains
        g0 c1).1 =
      (compute_move_gains_caching lg fwd docs from_n to_n fL tL gains
        g0 c2).1 ∧
    ∀ t, ((compute_move_gains_caching lg fwd docs from_n to_n fL tL gains
        g0 c1).2.2 t).gen = g0 + 1 →
      ((compute_move_gains_caching lg fwd docs from_n to_n fL tL gains
        g0 c1).2.2 t).value = term_gain lg (lg from_n) (lg to_n) fL tL t := by
  have hs1 := caching_fold_spec lg (lg from_n) (lg to_n) fwd fL tL (g0 + 1)
    docs (gains, c1)
    (cache_ok_of_stale lg (lg from_n) (lg to_n) fL tL g0 c1 h1)
  have hs2 := caching_fold_spec lg (lg from_n) (lg to_n) fwd fL tL (g0 + 1)
    docs (gains, c2)
    (cache_ok_of_stale lg (lg from_n) (lg to_n) fL tL g0 c2 h2)
  refine ⟨rfl, ?_, ?_⟩
  · funext u
    rw [compute_move_gains_caching, compute_move_gains_caching]
    rw [hs1.1 u, hs2.1 u]
  · intro t ht
    exact hs1.2 t ht

/-- C8 witness: the contract evaluated on a concrete pass whose two initial
caches hold different junk values. -/
theorem C8_cache_generation_contract_witness :
    ((∀ t : ℕ, ((fun _ : ℕ => CacheEntry.mk 5 0) t).gen ≤ 0) ∧
     (∀ t : ℕ, ((fun _ : ℕ => CacheEntry.mk 9 0) t).gen ≤ 0)) ∧
    (compute_move_gains_caching (fun _ => 0)
        (fun d => if d = 0 then [1] else []) [0] 1 1 (fun _ => 1)
        (fun _ => 0) (fun _ => 0) 0 (fun _ => CacheEntry.mk 5 0)).1 =
      (compute_move_gains_caching (fun _ => 0)
        (fun d => if d = 0 then [1] else []) [0] 1 1 (fun _ => 1)
        (fun _ => 0) (fun _ => 0) 0 (fun _ => CacheEntry.mk 9 0)).1 :=
  ⟨⟨fun _ => Nat.le_refl 0, fun _ => Nat.le_refl 0⟩,
   (C8_cache_generation_contract (fun _ => 0)
     (fun d => if d = 0 then [1] else []) [0] 1 1 (fun _ => 1) (fun _ => 0)
     (fun _ => 0) 0 (fun _ => CacheEntry.mk 5 0) (fun _ => CacheEntry.mk 9 0)
     (fun _ => Nat.le_refl 0) (fun _ => Nat.le_refl 0)).2.1⟩

/-! ## Precomputed gain kernel (compute_move_gains_precompute)

`precomputed_moves_t::precompute_moves` fills a table of type
`std::vector<std::vector<uint32_t>>` with `precomputed[i][j] =
expb(logn1, logn2, i, j)` — the raw cost value, truncated by the
`double → uint32_t` conversion — and `compute_move_gains_precompute` sums the
entries `precomputed[from_lex[t]][to_lex[t]]` directly as the document
gain. -/

/-- The `double → uint32_t` conversion used when storing a table entry
(defined for the nonnegative in-range values arising in the claims; outside
that range the C++ conversion is undefined behaviour). -/
def toUint32 (q : ℚ) : ℕ := (Int.floor q).toNat % 2 ^ 32

/-- `precompute_moves(logn1, logn2, upper_bound)`: the 2-D table with
`precomputed[i][j] = (uint32_t) expb(logn1, logn2, i, j)` for
`i, j < upper_bound`. -/
def precompute_moves (lg : ℕ → ℚ) (logn1 logn2 : ℚ) (ub : ℕ) :
    List (List ℕ) :=
  (List.range ub).map (fun i =>
    (List.range ub).map (fun j => toUint32 (expb lg logn1 logn2 i j)))

/-- `compute_move_gains_precompute(range, from_n, to_n, from_lex, to_lex)`:
for each handle, the gain is the sum over its terms of the table entry at
`[from_lex[t]][to_lex[t]]`, accumulated into a `double`. -/
def compute_move_gains_precompute (fwd : ℕ → List ℕ) (docs : List ℕ)
    (table : List (List ℕ)) (fL tL : ℕ → ℕ) (gains : ℕ → ℚ) : ℕ → ℚ :=
  docs.foldl
    (fun gs d => fun u =>
      if u = d then
        (fwd d).foldl
          (fun g t => g + (((table.getD (fL t) []).getD (tL t) 0 : ℕ) : ℚ)) 0
      else gs u)
    gains

/-- The dyadic values of `log2` used by the C5 counterexample: on the powers
of two that are its only arguments there (1, 2, 4, 8) this equals the real
`log2` exactly, so exact rational arithmetic is faithful to the C++ doubles. -/
def lgPow2 (n : ℕ) : ℚ :=
  if n = 1 then 0 else if n = 2 then 1 else if n = 4 then 2
  else if n = 8 then 3 else 0

theorem compute_move_gains_precompute_apply (fwd : ℕ → List ℕ)
    (docs : List ℕ) (table : List (List ℕ)) (fL tL : ℕ → ℕ)
    (gains : ℕ → ℚ) (u : ℕ) :
    compute_move_gains_precompute fwd docs table fL tL gains u =
      if u ∈ docs then
        (fwd u).foldl
          (fun g t => g + (((table.getD (fL t) []).getD (tL t) 0 : ℕ) : ℚ)) 0
      else gains u := by
  rw [compute_move_gains_precompute]
  exact gains_write_go
    (fun d => (fwd d).foldl
      (fun g t => g + (((table.getD (fL t) []).getD (tL t) 0 : ℕ) : ℚ)) 0)
    docs gains u

/-- The forward index of the C5 counterexample: document 0 has the single
term 0, document 1 has the two terms 1 and 2. -/
def fwdC5 (d : ℕ) : List ℕ :=
  if d = 0 then [0] else if d = 1 then [1, 2] else []

/-- C5 counterexample.  `from` side of 4 documents (documents 0 and 1 plus
two empty ones), `to` side of 8 documents containing none of the terms, so
`from_lex t = 1` for the three live terms and `to_lex = 0` everywhere.  The
plain kernel gives document 0 gain `-1` and document 1 gain `-2`, ordering
document 0 first; the precomputed kernel (table built for the same
`(n1, n2) = (4, 8)` with the same `log2` values) gives gains `1` and `2`,
ordering document 1 first: the two kernels do not induce identical orderings
of the handles by gain. -/
theorem C5_counterexample :
    compute_move_gains lgPow2 fwdC5 [0, 1] 4 8
        (fun t => if t < 3 then 1 else 0) (fun _ => 0) (fun _ => 0) 0 >
      compute_move_gains lgPow2 fwdC5 [0, 1] 4 8
        (fun t => if t < 3 then 1 else 0) (fun _ => 0) (fun _ => 0) 1 ∧
    compute_move_gains_precompute fwdC5 [0, 1]
        (precompute_moves lgPow2 (lgPow2 4) (lgPow2 8) 2)
        (fun t => if t < 3 then 1 else 0) (fun _ => 0) (fun _ => 0) 1 >
      compute_move_gains_precompute fwdC5 [0, 1]
        (precompute_moves lgPow2 (lgPow2 4) (lgPow2 8) 2)
        (fun t => if t < 3 then 1 else 0) (fun _ => 0) (fun _ => 0) 0 ∧
    ¬ ((compute_move_gains lgPow2 fwdC5 [0, 1] 4 8
          (fun t => if t < 3 then 1 else 0) (fun _ => 0) (fun _ => 0) 1 >
        compute_move_gains lgPow2 fwdC5 [0, 1] 4 8
          (fun t => if t < 3 then 1 else 0) (fun _ => 0) (fun _ => 0) 0) ↔
       (compute_move_gains_precompute fwdC5 [0, 1]
          (precompute_moves lgPow2 (lgPow2 4) (lgPow2 8) 2)
          (fun t => if t < 3 then 1 else 0) (fun _ => 0) (fun _ => 0) 1 >
        compute_move_gains_precompute fwdC5 [0, 1]
          (precompute_moves lgPow2 (lgPow2 4) (lgPow2 8) 2)
          (fun t => if t < 3 then 1 else 0) (fun _ => 0) (fun _ => 0) 0)) := by
  have hp0 : compute_move_gains lgPow2 fwdC5 [0, 1] 4 8
      (fun t => if t < 3 then 1 else 0) (fun _ => 0) (fun _ => 0) 0 = -1 := by
    rw [compute_move_gains_apply]
    norm_num [fwdC5, doc_gain, term_gain, expb, subOne64, lgPow2]
  have hp1 : compute_move_gains lgPow2 fwdC5 [0, 1] 4 8
      (fun t => if t < 3 then 1 else 0) (fun _ => 0) (fun _ => 0) 1 = -2 := by
    rw [compute_move_gains_apply]
    norm_num [fwdC5, doc_gain, term_gain, expb, subOne64, lgPow2]
  have htab : precompute_moves lgPow2 (lgPow2 4) (lgPow2 8) 2 =
      [[0, 2], [1, 3]] := by
    norm_num [precompute_moves, toUint32, expb, lgPow2, List.range_succ]
    decide
  have hq0 : compute_move_gains_precompute fwdC5 [0, 1]
      (precompute_moves lgPow2 (lgPow2 4) (lgPow2 8) 2)
      (fun t => if t < 3 then 1 else 0) (fun _ => 0) (fun _ => 0) 0 = 1 := by
    rw [compute_move_gains_precompute_apply, htab]
    norm_num [fwdC5]
  have hq1 : compute_move_gains_precompute fwdC5 [0, 1]
      (precompute_moves lgPow2 (lgPow2 4) (lgPow2 8) 2)
      (fun t => if t < 3 then 1 else 0) (fun _ => 0) (fun _ => 0) 1 = 2 := by
    rw [compute_move_gains_precompute_apply, htab]
    norm_num [fwdC5]
  rw [hp0, hp1, hq0, hq1]
  norm_num

/-! ## Swap phase -/

/-- Degree update of one executed swap: for every term of the left handle
`deg_left[t]--; deg_right[t]++`, then for every term of the right handle
`deg_left[t]++; deg_right[t]--`. -/
def swap_degree_update (fwd : ℕ → List ℕ) (dp : (ℕ → ℕ) × (ℕ → ℕ))
    (x y : ℕ) : (ℕ → ℕ) × (ℕ → ℕ) :=
  let dp1 := (fwd x).foldl (fun p t => (decAt p.1 t, bumpAt p.2 t)) dp
  (fwd y).foldl (fun p t => (bumpAt p.1 t, decAt p.2 t)) dp1

/-- The `swap` loop: walk both sides in lockstep from `begin()`; stop as soon
as a side is exhausted or the combined gain of the current pair is
non-positive; otherwise update the degree maps, exchange the two handles in
place and advance both iterators. -/
def swap_go (gains : ℕ → ℚ) (fwd : ℕ → List ℕ) :
    List ℕ → List ℕ → (ℕ → ℕ) × (ℕ → ℕ) →
    List ℕ × List ℕ × ((ℕ → ℕ) × (ℕ → ℕ))
  | [], r, dp => ([], r, dp)
  | x :: ls, [], dp => (x :: ls, [], dp)
  | x :: ls, y :: rs, dp =>
    if gains x + gains y ≤ 0 then (x :: ls, y :: rs, dp)
    else
      let dp' := swap_degree_update fwd dp x y
      let res := swap_go gains fwd ls rs dp'
      (y :: res.1, x :: res.2.1, res.2.2)

/-- Modelled from the claim's wording: the first position at which the
lockstep scan stops — either side exhausted there, or the combined gain of
the pair at that position non-positive. -/
def swap_stop (gains : ℕ → ℚ) : List ℕ → List ℕ → ℕ
  | x :: ls, y :: rs =>
    if gains x + gains y ≤ 0 then 0 else swap_stop gains ls rs + 1
  | _, _ => 0

/-- C2: the swap phase stops at the first position `k` where a side is
exhausted or the combined gain is non-positive; every earlier pair is
swapped in place (the first `k` elements of the two sides are exchanged,
and the degree maps receive exactly the updates of those `k` pairs), and
nothing past position `k` is examined or changed. -/
theorem C2_swap_scan (gains : ℕ → ℚ) (fwd : ℕ → List ℕ) :
    ∀ (l r : List ℕ) (dp : (ℕ → ℕ) × (ℕ → ℕ)),
    swap_go gains fwd l r dp =
      (r.take (swap_stop gains l r) ++ l.drop (swap_stop gains l r),
       l.take (swap_stop gains l r) ++ r.drop (swap_stop gains l r),
       ((l.zip r).take (swap_stop gains l r)).foldl
         (fun dp xy => swap_degree_update fwd dp xy.1 xy.2) dp) ∧
    swap_stop gains l r ≤ min l.length r.length ∧
    (∀ i, i < swap_stop gains l r →
      0 < gains (l.getD i 0) + gains (r.getD i 0)) ∧
    (swap_stop gains l r = min l.length r.length ∨
      gains (l.getD (swap_stop gains l r) 0) +
        gains (r.getD (swap_stop gains l r) 0) ≤ 0) := by
  intro l
  induction l with
  | nil =>
    intro r dp
    refine ⟨?_, ?_, ?_, ?_⟩
    · simp [swap_go, swap_stop]
    · simp [swap_stop]
    · intro i hi
      simp [swap_stop] at hi
    · left
      simp [swap_stop]
  | cons x ls ih =>
    intro r dp
    cases r with
    | nil =>
      refine ⟨?_, ?_, ?_, ?_⟩
      · simp [swap_go, swap_stop]
      · simp [swap_stop]
      · intro i hi
        simp [swap_stop] at hi
      · left
        simp [swap_stop]
    | cons y rs =>
      by_cases hg : gains x + gains y ≤ 0
      · refine ⟨?_, ?_, ?_, ?_⟩
        · simp [swap_go, swap_stop, hg]
        · simp [swap_stop, hg]
        · intro i hi
          simp [swap_stop, hg] at hi
        · right
          simp only [swap_stop, if_pos hg, List.getD_cons_zero]
          exact hg
      · have ihr := ih rs (swap_degree_update fwd dp x y)
        have hstop : swap_stop gains (x :: ls) (y :: rs) =
            swap_stop gains ls rs + 1 := by
          simp [swap_stop, hg]
        refine ⟨?_, ?_, ?_, ?_⟩
        · rw [swap_go, if_neg hg, hstop]
          simp only [List.take_succ_cons, List.drop_succ_cons,
            List.zip_cons_cons, List.foldl_cons]
          rw [ihr.1]
          rfl
        · rw [hstop]
          simp only [List.length_cons]
          have := ihr.2.1
          omega
        · intro i hi
          rw [hstop] at hi
          cases i with
          | zero =>
            simp only [List.getD_cons_zero]
            exact lt_of_not_le (fun hc => hg (by linarith))
          | succ j =>
            simp only [List.getD_cons_succ]
            exact ihr.2.2.1 j (by omega)
        · rw [hstop]
          rcases ihr.2.2.2 with hmin | hstopg
          · left
            simp only [List.length_cons]
            omega
          · right
            simpa using hstopg

/-! ## Degree-sum invariance across swaps -/

theorem one_le_countDocs (fwd : ℕ → List ℕ) (docs : List ℕ) (d t : ℕ)
    (hd : d ∈ docs) (ht : t ∈ fwd d) : 1 ≤ countDocs fwd docs t := by
  rw [countDocs]
  have hm : d ∈ docs.filter (fun d => t ∈ fwd d) :=
    List.mem_filter.mpr ⟨hd, by simpa using ht⟩
  have := List.length_pos.mpr (List.ne_nil_of_mem hm)
  omega

theorem countDocs_append (fwd : ℕ → List ℕ) (A B : List ℕ) (t : ℕ) :
    countDocs fwd (A ++ B) t = countDocs fwd A t + countDocs fwd B t := by
  rw [countDocs, countDocs, countDocs, List.filter_append, List.length_append]

theorem countDocs_cons (fwd : ℕ → List ℕ) (d : ℕ) (B : List ℕ) (t : ℕ) :
    countDocs fwd (d :: B) t =
      (if t ∈ fwd d then 1 else 0) + countDocs fwd B t := by
  rw [countDocs, countDocs, List.filter_cons]
  by_cases h : t ∈ fwd d
  · simp [h]
    omega
  · simp [h]

theorem foldl_pair_dec_bump (ts : List ℕ) :
    ∀ dp : (ℕ → ℕ) × (ℕ → ℕ),
    ts.foldl (fun p t => (decAt p.1 t, bumpAt p.2 t)) dp =
      (ts.foldl decAt dp.1, ts.foldl bumpAt dp.2) := by
  induction ts with
  | nil => intro dp; rfl
  | cons t rest ih => intro dp; rw [List.foldl_cons, ih]; rfl

theorem foldl_pair_bump_dec (ts : List ℕ) :
    ∀ dp : (ℕ → ℕ) × (ℕ → ℕ),
    ts.foldl (fun p t => (bumpAt p.1 t, decAt p.2 t)) dp =
      (ts.foldl bumpAt dp.1, ts.foldl decAt dp.2) := by
  induction ts with
  | nil => intro dp; rfl
  | cons t rest ih => intro dp; rw [List.foldl_cons, ih]; rfl

theorem foldl_decAt (ts : List ℕ) : ∀ (m : ℕ → ℕ),
    (∀ v, ts.count v ≤ m v) → (∀ v, m v < 2 ^ 64) →
    ∀ u, (ts.foldl decAt m) u = m u - ts.count u := by
  induction ts with
  | nil => intro m _ _ u; simp
  | cons t rest ih =>
    intro m hle hlt u
    have h1 : 1 ≤ m t := by
      have := hle t
      rw [List.count_cons_self] at this
      omega
    have hstep : ∀ v, (decAt m t) v = m v - (if v = t then 1 else 0) := by
      intro v
      rw [decAt]
      by_cases hv : v = t
      · subst hv
        rw [if_pos rfl, if_pos rfl, subOne64_eq_sub _ h1 (hlt v)]
      · rw [if_neg hv, if_neg hv]
        omega
    rw [List.foldl_cons, ih (decAt m t) ?hc ?hb u, hstep u]
    case hc =>
      intro v
      rw [hstep v]
      have := hle v
      rw [List.count_cons] at this
      by_cases hv : v = t
      · subst hv; simp at this ⊢; omega
      · simp [hv] at this ⊢; omega
    case hb =>
      intro v
      rw [hstep v]
      have := hlt v
      omega
    rw [List.count_cons]
    by_cases hv : u = t
    · subst hv
      simp
      omega
    · rw [if_neg hv]
      simp only [beq_iff_eq]
      rw [if_neg (fun h : t = u => hv h.symm)]
      omega

/-- The degree update of one executed swap turns exact counts of the two
sides into exact counts of the sides after the exchange of `x` and `y`. -/
theorem swap_degree_update_counts (fwd : ℕ → List ℕ)
    (hN : ∀ d, (fwd d).Nodup) (C ls D rs : List ℕ) (x y : ℕ)
    (hC : (C ++ x :: ls).length < 2 ^ 64)
    (hD : (D ++ y :: rs).length + 1 < 2 ^ 64) :
    swap_degree_update fwd
      (fun t => countDocs fwd (C ++ x :: ls) t,
       fun t => countDocs fwd (D ++ y :: rs) t) x y =
      (fun t => countDocs fwd (C ++ y :: ls) t,
       fun t => countDocs fwd (D ++ x :: rs) t) := by
  have hcount : ∀ (d : ℕ) (v : ℕ),
      (fwd d).count v = if v ∈ fwd d then 1 else 0 := by
    intro d v
    by_cases h : v ∈ fwd d
    · rw [if_pos h, List.count_eq_one_of_mem (hN d) h]
    · rw [if_neg h, List.count_eq_zero_of_not_mem h]
  have hcl : ∀ v, countDocs fwd (C ++ x :: ls) v =
      countDocs fwd C v + (if v ∈ fwd x then 1 else 0) + countDocs fwd ls v := by
    intro v
    rw [countDocs_append, countDocs_cons]
    ring
  have hdr : ∀ v, countDocs fwd (D ++ y :: rs) v =
      countDocs fwd D v + (if v ∈ fwd y then 1 else 0) + countDocs fwd rs v := by
    intro v
    rw [countDocs_append, countDocs_cons]
    ring
  rw [swap_degree_update, foldl_pair_dec_bump, foldl_pair_bump_dec]
  have hdec1 : ∀ u, ((fwd x).foldl decAt
      (fun t => countDocs fwd (C ++ x :: ls) t)) u =
      countDocs fwd (C ++ x :: ls) u - (if u ∈ fwd x then 1 else 0) := by
    intro u
    rw [foldl_decAt (fwd x) _ ?hc ?hb u, hcount x u]
    case hc =>
      intro v
      rw [hcount x v, hcl v]
      by_cases h : v ∈ fwd x
      · simp [h]
        omega
      · simp [h]
    case hb =>
      intro v
      have h1 := countDocs_le_length fwd (C ++ x :: ls) v
      omega
  have hcyl : ∀ v, countDocs fwd (C ++ y :: ls) v =
      countDocs fwd C v + (if v ∈ fwd y then 1 else 0) + countDocs fwd ls v := by
    intro v
    rw [countDocs_append, countDocs_cons]
    ring
  have hdxr : ∀ v, countDocs fwd (D ++ x :: rs) v =
      countDocs fwd D v + (if v ∈ fwd x then 1 else 0) + countDocs fwd rs v := by
    intro v
    rw [countDocs_append, countDocs_cons]
    ring
  have hbump2 : ∀ u, ((fwd x).foldl bumpAt
      (fun t => countDocs fwd (D ++ y :: rs) t)) u =
      countDocs fwd (D ++ y :: rs) u + (if u ∈ fwd x then 1 else 0) := by
    intro u
    rw [foldl_bumpAt, hcount x u]
  have hdec2 : ∀ u, ((fwd y).foldl decAt ((fwd x).foldl bumpAt
      (fun t => countDocs fwd (D ++ y :: rs) t))) u =
      countDocs fwd (D ++ y :: rs) u + (if u ∈ fwd x then 1 else 0) -
        (if u ∈ fwd y then 1 else 0) := by
    intro u
    rw [foldl_decAt (fwd y) _ ?hc2 ?hb2 u, hbump2 u, hcount y u]
    case hc2 =>
      intro v
      rw [hbump2 v, hcount y v, hdr v]
      omega
    case hb2 =>
      intro v
      rw [hbump2 v]
      have h1 := countDocs_le_length fwd (D ++ y :: rs) v
      have h2 : (if v ∈ fwd x then 1 else 0) ≤ 1 := by
        split
        · omega
        · omega
      omega
  rw [Prod.mk.injEq]
  constructor
  · funext u
    show ((fwd y).foldl bumpAt ((fwd x).foldl decAt
      (fun t => countDocs fwd (C ++ x :: ls) t))) u = _
    rw [foldl_bumpAt, hdec1 u, hcount y u, hcl u, hcyl u]
    have h2 : (if u ∈ fwd x then 1 else 0) ≤ 1 := by
      split
      · omega
      · omega
    omega
  · funext u
    show ((fwd y).foldl decAt ((fwd x).foldl bumpAt
      (fun t => countDocs fwd (D ++ y :: rs) t))) u = _
    rw [hdec2 u, hdr u, hdxr u]
    omega

/-- After any number of executed swaps, the degree maps are the exact
per-term document counts of the two current sides (each side being the
swapped-in prefix of the other side followed by its own remainder). -/
theorem swap_prefix_counts (fwd : ℕ → List ℕ) (hN : ∀ d, (fwd d).Nodup) :
    ∀ (k : ℕ) (C D l r : List ℕ),
    k ≤ l.length → k ≤ r.length →
    C.length + l.length < 2 ^ 64 → D.length + r.length + 1 < 2 ^ 64 →
    ((l.zip r).take k).foldl
        (fun dp xy => swap_degree_update fwd dp xy.1 xy.2)
        (fun t => countDocs fwd (C ++ l) t,
         fun t => countDocs fwd (D ++ r) t) =
      (fun t => countDocs fwd (C ++ (r.take k ++ l.drop k)) t,
       fun t => countDocs fwd (D ++ (l.take k ++ r.drop k)) t) := by
  intro k
  induction k with
  | zero =>
    intro C D l r _ _ _ _
    simp
  | succ k ihk =>
    intro C D l r hkl hkr hCl hDr
    cases l with
    | nil => simp at hkl
    | cons x ls =>
      cases r with
      | nil => simp at hkr
      | cons y rs =>
        rw [List.zip_cons_cons, List.take_succ_cons, List.foldl_cons]
        have hstep := swap_degree_update_counts fwd hN C ls D rs x y
          (by simp at hCl ⊢; omega) (by simp at hDr ⊢; omega)
        show ((ls.zip rs).take k).foldl
            (fun dp xy => swap_degree_update fwd dp xy.1 xy.2)
            (swap_degree_update fwd
              (fun t => countDocs fwd (C ++ x :: ls) t,
               fun t => countDocs fwd (D ++ y :: rs) t) x y) = _
        rw [hstep]
        have e1 : C ++ y :: ls = (C ++ [y]) ++ ls := by simp
        have e2 : D ++ x :: rs = (D ++ [x]) ++ rs := by simp
        rw [e1, e2, ihk (C ++ [y]) (D ++ [x]) ls rs
          (by simp at hkl; omega) (by simp at hkr; omega)
          (by simp at hCl ⊢; omega) (by simp at hDr ⊢; omega)]
        rw [List.take_succ_cons, List.drop_succ_cons, List.take_succ_cons,
          List.drop_succ_cons]
        have e3 : (C ++ [y]) ++ (rs.take k ++ ls.drop k) =
            C ++ (y :: rs.take k ++ ls.drop k) := by simp
        have e4 : (D ++ [x]) ++ (ls.take k ++ rs.drop k) =
            D ++ (x :: ls.take k ++ rs.drop k) := by simp
        rw [e3, e4]

/-- C3: starting from degree maps initialized by `compute_degrees` at
partition entry, after every individual swap executed by the swap phase (by
C2 the degree state after `k` swaps is the fold of the first `k` pairs) and
for every term `t`, `deg_left[t] + deg_right[t]` is unchanged and equals the
number of documents of `left ++ right` containing `t`. -/
theorem C3_degree_sum_invariance (fwd : ℕ → List ℕ) (l r : List ℕ)
    (hN : ∀ d, (fwd d).Nodup)
    (hl : l.length + 1 < 2 ^ 64) (hr : r.length + 1 < 2 ^ 64)
    (k : ℕ) (hk : k ≤ min l.length r.length) (t : ℕ) :
    (((l.zip r).take k).foldl
        (fun dp xy => swap_degree_update fwd dp xy.1 xy.2)
        (compute_degrees fwd l, compute_degrees fwd r)).1 t +
      (((l.zip r).take k).foldl
        (fun dp xy => swap_degree_update fwd dp xy.1 xy.2)
        (compute_degrees fwd l, compute_degrees fwd r)).2 t =
      countDocs fwd (l ++ r) t := by
  have hini : ((compute_degrees fwd l, compute_degrees fwd r) :
      (ℕ → ℕ) × (ℕ → ℕ)) =
      (fun t => countDocs fwd (([] : List ℕ) ++ l) t,
       fun t => countDocs fwd (([] : List ℕ) ++ r) t) := by
    rw [Prod.mk.injEq]
    constructor
    · funext u
      rw [compute_degrees_eq_countDocs fwd l hN u, List.nil_append]
    · funext u
      rw [compute_degrees_eq_countDocs fwd r hN u, List.nil_append]
  rw [hini, swap_prefix_counts fwd hN k [] [] l r
    (le_trans hk (min_le_left _ _)) (le_trans hk (min_le_right _ _))
    (by simpa using (by omega : l.length < 2 ^ 64))
    (by simpa using hr)]
  have h1 := countDocs_append fwd (r.take k ++ l.drop k)
    (l.take k ++ r.drop k) t
  have h2 := countDocs_append fwd (l.take k) (l.drop k) t
  have h3 := countDocs_append fwd (r.take k) (r.drop k) t
  have h4 := countDocs_append fwd (r.take k) (l.drop k) t
  have h5 := countDocs_append fwd l r t
  rw [List.take_append_drop] at h2 h3
  have h6 := countDocs_append fwd (l.take k) (r.drop k) t
  simp only [List.nil_append]
  rw [h4, h6, h5]
  omega

/-- C3 witness: the invariant evaluated after the single swap of a concrete
two-document partition. -/
theorem C3_degree_sum_invariance_witness :
    ((∀ d : ℕ, ([d] : List ℕ).Nodup) ∧ (1 : ℕ) ≤ min 1 1) ∧
    (([(0, 1)] : List (ℕ × ℕ)).foldl
        (fun dp xy => swap_degree_update (fun d => [d]) dp xy.1 xy.2)
        (compute_degrees (fun d => [d]) [0],
         compute_degrees (fun d => [d]) [1])).1 0 +
      (([(0, 1)] : List (ℕ × ℕ)).foldl
        (fun dp xy => swap_degree_update (fun d => [d]) dp xy.1 xy.2)
        (compute_degrees (fun d => [d]) [0],
         compute_degrees (fun d => [d]) [1])).2 0 =
      countDocs (fun d => [d]) ([0] ++ [1]) 0 := by
  refine ⟨⟨fun d => List.nodup_singleton d, le_refl 1⟩, ?_⟩
  have h := C3_degree_sum_invariance (fun d => [d]) [0] [1]
    (fun d => List.nodup_singleton d) (by norm_num) (by norm_num)
    1 (le_refl 1) 0
  simpa using h

/-! ## Recursive driver (process_partition, recursive_graph_bisection)

`GainF` is a template parameter in the source; here it is a function
parameter updating the shared gains array from the range, the side sizes and
the degree maps.  `std::sort` by gain is abstracted by a function `sortF`
assumed only to permute its input (the C++ sort is unstable, so nothing more
is guaranteed); the final by-id sort of terminal blocks is likewise a
parameter `idSort`.  Progress reporting and the parallel/sequential choice
(identical denotationally on disjoint halves) are dropped. -/

/-- The kernel interface of the driver (`gain_function_t`). -/
def KernelT : Type :=
  List ℕ → ℕ → ℕ → (ℕ → ℕ) → (ℕ → ℕ) → (ℕ → ℚ) → ℕ → ℚ

/-- `compute_gains(partition, degrees, gain_function)`: the left side with
`(n1, n2, deg_left, deg_right)`, then the right side with the arguments
swapped. -/
def compute_gains (kern : KernelT) (l r : List ℕ) (dL dR : ℕ → ℕ)
    (g : ℕ → ℚ) : ℕ → ℚ :=
  kern r r.length l.length dR dL (kern l l.length r.length dL dR g)

/-- One iteration of the refinement loop: compute gains, sort both halves by
gain, swap.  State: left handles, right handles, degree-map pair, gains. -/
def refine_iter (kern : KernelT) (sortF : (ℕ → ℚ) → List ℕ → List ℕ)
    (fwd : ℕ → List ℕ)
    (st : List ℕ × List ℕ × ((ℕ → ℕ) × (ℕ → ℕ)) × (ℕ → ℚ)) :
    List ℕ × List ℕ × ((ℕ → ℕ) × (ℕ → ℕ)) × (ℕ → ℚ) :=
  let g' := compute_gains kern st.1 st.2.1 st.2.2.1.1 st.2.2.1.2 st.2.2.2
  let l' := sortF g' st.1
  let r' := sortF g' st.2.1
  let res := swap_go g' fwd l' r' st.2.2.1
  (res.1, res.2.1, res.2.2, g')

/-- `process_partition`: degrees computed at entry, then exactly 20
iterations of gains → sort-by-gain → swap. -/
def process_partition (kern : KernelT) (sortF : (ℕ → ℚ) → List ℕ → List ℕ)
    (fwd : ℕ → List ℕ) (l r : List ℕ) (g : ℕ → ℚ) :
    List ℕ × List ℕ × ((ℕ → ℕ) × (ℕ → ℕ)) × (ℕ → ℚ) :=
  (refine_iter kern sortF fwd)^[20]
    (l, r, (compute_degrees fwd l, compute_degrees fwd r), g)

/-- Terminal body of the driver: process the split once, then sort both
halves by id. -/
def rgb_base (kernC kernP : KernelT) (sortF : (ℕ → ℚ) → List ℕ → List ℕ)
    (idSort : List ℕ → List ℕ) (fwd : ℕ → List ℕ) (docs : List ℕ)
    (g : ℕ → ℚ) (cacheDepth : ℕ) : List ℕ × (ℕ → ℚ) :=
  let p := split docs
  let kern := if 1 ≤ cacheDepth then kernC else kernP
  let st := process_partition kern sortF fwd p.1 p.2 g
  (idSort st.1 ++ idSort st.2.1, st.2.2.2)

/-- `recursive_graph_bisection(documents, depth, parallel_depth, cache_depth)`:
split, process the partition (caching kernel while `cache_depth ≥ 1`, plain
kernel below, decrementing `cache_depth` for the recursive calls), recurse
into the halves while `depth > 1` and more than two documents remain,
otherwise sort both halves by id.  Returns the reordered handles and the
final gains array. -/
def recursive_graph_bisection (kernC kernP : KernelT)
    (sortF : (ℕ → ℚ) → List ℕ → List ℕ) (idSort : List ℕ → List ℕ)
    (fwd : ℕ → List ℕ) :
    ℕ → List ℕ → (ℕ → ℚ) → ℕ → List ℕ × (ℕ → ℚ)
  | depth + 2, docs, g, cacheDepth =>
    let p := split docs
    let kern := if 1 ≤ cacheDepth then kernC else kernP
    let st := process_partition kern sortF fwd p.1 p.2 g
    let cd' := if 1 ≤ cacheDepth then cacheDepth - 1 else cacheDepth
    if 2 < docs.length then
      let a := recursive_graph_bisection kernC kernP sortF idSort fwd
        (depth + 1) st.1 st.2.2.2 cd'
      let b := recursive_graph_bisection kernC kernP sortF idSort fwd
        (depth + 1) st.2.1 a.2 cd'
      (a.1 ++ b.1, b.2)
    else (idSort st.1 ++ idSort st.2.1, st.2.2.2)
  | 1, docs, g, cacheDepth => rgb_base kernC kernP sortF idSort fwd docs g cacheDepth
  | 0, docs, g, cacheDepth => rgb_base kernC kernP sortF idSort fwd docs g cacheDepth

/-- Number of refinement-loop iterations the driver executes: 20 per
partition processed (`process_partition` runs its loop unconditionally, also
when the range has fewer than 2 documents). -/
def rgb_iter_count (kernC kernP : KernelT)
    (sortF : (ℕ → ℚ) → List ℕ → List ℕ) (idSort : List ℕ → List ℕ)
    (fwd : ℕ → List ℕ) :
    ℕ → List ℕ → (ℕ → ℚ) → ℕ → ℕ
  | depth + 2, docs, g, cacheDepth =>
    let p := split docs
    let kern := if 1 ≤ cacheDepth then kernC else kernP
    let st := process_partition kern sortF fwd p.1 p.2 g
    let cd' := if 1 ≤ cacheDepth then cacheDepth - 1 else cacheDepth
    if 2 < docs.length then
      let a := recursive_graph_bisection kernC kernP sortF idSort fwd
        (depth + 1) st.1 st.2.2.2 cd'
      20 + rgb_iter_count kernC kernP sortF idSort fwd
          (depth + 1) st.1 st.2.2.2 cd' +
        rgb_iter_count kernC kernP sortF idSort fwd
          (depth + 1) st.2.1 a.2 cd'
    else 20
  | _, _, _, _ => 20

theorem perm_short_eq (r0 l : List ℕ) (h : l.Perm r0) (hr : r0.length ≤ 1) :
    l = r0 := by
  cases r0 with
  | nil => exact h.eq_nil
  | cons a rest =>
    cases rest with
    | nil => exact List.perm_singleton.mp h
    | cons b rest2 => simp at hr

theorem refine_iter_keep (kern : KernelT)
    (sortF : (ℕ → ℚ) → List ℕ → List ℕ) (fwd : ℕ → List ℕ)
    (hsort : ∀ gn l, (sortF gn l).Perm l) (r0 : List ℕ)
    (hr0 : r0.length ≤ 1)
    (st : List ℕ × List ℕ × ((ℕ → ℕ) × (ℕ → ℕ)) × (ℕ → ℚ))
    (h1 : st.1 = []) (h2 : st.2.1 = r0) :
    (refine_iter kern sortF fwd st).1 = [] ∧
    (refine_iter kern sortF fwd st).2.1 = r0 := by
  have hl' : sortF (compute_gains kern st.1 st.2.1 st.2.2.1.1 st.2.2.1.2
      st.2.2.2) st.1 = [] := by
    rw [h1]
    exact (hsort _ []).eq_nil
  have hr' : sortF (compute_gains kern st.1 st.2.1 st.2.2.1.1 st.2.2.1.2
      st.2.2.2) st.2.1 = r0 := by
    rw [h2]
    exact perm_short_eq r0 _ (hsort _ r0) hr0
  rw [refine_iter]
  simp only [hl', hr']
  exact ⟨rfl, rfl⟩

theorem process_partition_small (kern : KernelT)
    (sortF : (ℕ → ℚ) → List ℕ → List ℕ) (fwd : ℕ → List ℕ)
    (hsort : ∀ gn l, (sortF gn l).Perm l) (r0 : List ℕ)
    (hr0 : r0.length ≤ 1) (g : ℕ → ℚ) :
    (process_partition kern sortF fwd [] r0 g).1 = [] ∧
    (process_partition kern sortF fwd [] r0 g).2.1 = r0 := by
  rw [process_partition]
  have key : ∀ n : ℕ,
      ((refine_iter kern sortF fwd)^[n]
        ([], r0, (compute_degrees fwd [], compute_degrees fwd r0), g)).1 =
          [] ∧
      ((refine_iter kern sortF fwd)^[n]
        ([], r0, (compute_degrees fwd [], compute_degrees fwd r0), g)).2.1 =
          r0 := by
    intro n
    induction n with
    | zero => exact ⟨rfl, rfl⟩
    | succ n ih =>
      rw [Function.iterate_succ_apply']
      exact refine_iter_keep kern sortF fwd hsort r0 hr0 _ ih.1 ih.2
  exact key 20

theorem rgb_base_small (kernC kernP : KernelT)
    (sortF : (ℕ → ℚ) → List ℕ → List ℕ) (idSort : List ℕ → List ℕ)
    (fwd : ℕ → List ℕ) (hsort : ∀ gn l, (sortF gn l).Perm l)
    (hid : ∀ l, (idSort l).Perm l) (g : ℕ → ℚ) (cd : ℕ) :
    (rgb_base kernC kernP sortF idSort fwd [] g cd).1 = [] ∧
    (rgb_base kernC kernP sortF idSort fwd [0] g cd).1 = [0] := by
  constructor
  · rw [rgb_base]
    have hs := process_partition_small (if 1 ≤ cd then kernC else kernP)
      sortF fwd hsort [] (by norm_num) g
    have e : split ([] : List ℕ) = ([], []) := rfl
    simp only [e]
    rw [hs.1, hs.2, (hid []).eq_nil]
    rfl
  · rw [rgb_base]
    have hs := process_partition_small (if 1 ≤ cd then kernC else kernP)
      sortF fwd hsort [0] (by norm_num) g
    have e : split ([0] : List ℕ) = ([], [0]) := rfl
    simp only [e]
    rw [hs.1, hs.2, (hid []).eq_nil,
      perm_short_eq [0] _ (hid [0]) (by norm_num)]
    rfl

theorem rgb_small (kernC kernP : KernelT)
    (sortF : (ℕ → ℚ) → List ℕ → List ℕ) (idSort : List ℕ → List ℕ)
    (fwd : ℕ → List ℕ) (hsort : ∀ gn l, (sortF gn l).Perm l)
    (hid : ∀ l, (idSort l).Perm l) (g : ℕ → ℚ) (depth cd : ℕ) :
    (recursive_graph_bisection kernC kernP sortF idSort fwd depth [] g
      cd).1 = [] ∧
    (recursive_graph_bisection kernC kernP sortF idSort fwd depth [0] g
      cd).1 = [0] := by
  rcases depth with _ | _ | d
  · exact rgb_base_small kernC kernP sortF idSort fwd hsort hid g cd
  · exact rgb_base_small kernC kernP sortF idSort fwd hsort hid g cd
  · constructor
    · rw [recursive_graph_bisection]
      rw [if_neg (by norm_num)]
      have hs := process_partition_small (if 1 ≤ cd then kernC else kernP)
        sortF fwd hsort [] (by norm_num) g
      have e : split ([] : List ℕ) = ([], []) := rfl
      simp only [e]
      rw [hs.1, hs.2, (hid []).eq_nil]
      rfl
    · rw [recursive_graph_bisection]
      rw [if_neg (by norm_num)]
      have hs := process_partition_small (if 1 ≤ cd then kernC else kernP)
        sortF fwd hsort [0] (by norm_num) g
      have e : split ([0] : List ℕ) = ([], [0]) := rfl
      simp only [e]
      rw [hs.1, hs.2, (hid []).eq_nil,
        perm_short_eq [0] _ (hid [0]) (by norm_num)]
      rfl

/-- C9 (amended): when the initial range has fewer than 2 documents the
driver performs no recursion and no swap can fire, and the resulting mapping
is the identity — an empty mapping for `D = 0` and `[0]` for `D = 1` — but
the engine does not return immediately: it still runs the 20-iteration
refinement loop on the trivial split (see the counterexample's iteration
count). -/
theorem C9_small_range_identity (kernC kernP : KernelT)
    (sortF : (ℕ → ℚ) → List ℕ → List ℕ) (idSort : List ℕ → List ℕ)
    (fwd : ℕ → List ℕ) (g : ℕ → ℚ) (depth cd : ℕ)
    (hsort : ∀ gn l, (sortF gn l).Perm l) (hid : ∀ l, (idSort l).Perm l) :
    (recursive_graph_bisection kernC kernP sortF idSort fwd depth [] g
      cd).1 = [] ∧
    (recursive_graph_bisection kernC kernP sortF idSort fwd depth [0] g
      cd).1 = [0] ∧
    get_mapping (recursive_graph_bisection kernC kernP sortF idSort fwd
      depth [] g cd).1 = [] ∧
    get_mapping (recursive_graph_bisection kernC kernP sortF idSort fwd
      depth [0] g cd).1 = [0] := by
  have h := rgb_small kernC kernP sortF idSort fwd hsort hid g depth cd
  refine ⟨h.1, h.2, ?_, ?_⟩
  · rw [h.1]
    rfl
  · rw [h.2]
    rfl

/-- C9 witness: the identity-mapping behaviour evaluated at concrete driver
parameters. -/
theorem C9_small_range_identity_witness :
    (∀ (gn : ℕ → ℚ) (l : List ℕ), ((fun _ l => l) gn l : List ℕ).Perm l) ∧
    get_mapping (recursive_graph_bisection (fun _ _ _ _ _ g => g)
      (fun _ _ _ _ _ g => g) (fun _ l => l) (fun l => l) (fun _ => [])
      0 [0] (fun _ => 0) 0).1 = [0] :=
  ⟨fun _ l => List.Perm.refl l,
   (C9_small_range_identity (fun _ _ _ _ _ g => g) (fun _ _ _ _ _ g => g)
     (fun _ l => l) (fun l => l) (fun _ => []) (fun _ => 0) 0 0
     (fun _ l => List.Perm.refl l) (fun l => List.Perm.refl l)).2.2.2⟩

/-- C9 counterexample: on a one-document range the engine does not return
immediately — it executes the full 20-iteration refinement loop of
`process_partition` on the trivial split before producing the (identity)
mapping, so the number of refinement iterations is 20, not 0. -/
theorem C9_counterexample :
    rgb_iter_count (fun _ _ _ _ _ g => g) (fun _ _ _ _ _ g => g)
      (fun _ l => l) (fun l => l) (fun _ => []) 0 [0] (fun _ => 0) 0 = 20 ∧
    ¬ (rgb_iter_count (fun _ _ _ _ _ g => g) (fun _ _ _ _ _ g => g)
      (fun _ l => l) (fun l => l) (fun _ => []) 0 [0] (fun _ => 0) 0 = 0) := by
  refine ⟨rfl, ?_⟩
  intro h
  rw [show rgb_iter_count (fun _ _ _ _ _ g => g) (fun _ _ _ _ _ g => g)
      (fun _ l => l) (fun l => l) (fun _ => []) 0 [0] (fun _ => 0) 0 = 20
    from rfl] at h
  exact absurd h (by norm_num)

end DS2I
